import Mathlib

/-!
Shallow embedding of `src/module/rope_simple.py` (nano-vllm-jax).

The repository consists of a single pure function `apply_rope(x, position,
base=10000)` applying rotary positional embeddings (RoPE) to a rank-4
tensor `x : (B, S, H, D)` given positions `position : (B, S)`.

Modelling choices:
* A rank-4 tensor is a function `Fin B → Fin S → Fin H → List ℝ`; the last
  (feature) dimension is kept as a list so that the strided slices
  `x[..., ::2]`, `x[..., 1::2]`, and the final `jnp.stack` + `reshape`
  re-interleave are modelled structurally rather than assumed.
* Floating-point arithmetic is modelled by exact real arithmetic
  (`Real.cos`, `Real.sin`, `Real.rpow`), matching the spec's "exact real
  arithmetic" reading of the numeric semantics.
* The `assert head_dim % 2 == 0` is modelled by returning `Option`:
  `none` is the assertion failure.
-/

/-- Default base: `_DEFAULT_BASE = 10000` in the source. -/
def _DEFAULT_BASE : ℕ := 10000

/-- Rank-4 real tensor of shape `(B, S, H, D)`; the last dimension is a list. -/
abbrev Tensor4 (B S H : ℕ) := Fin B → Fin S → Fin H → List ℝ

/-- Rank-2 real tensor of shape `(B, S)` (the `position` array). -/
abbrev Tensor2 (B S : ℕ) := Fin B → Fin S → ℝ

/-- Shape predicate: `x` has last dimension `D`, i.e. every fiber along
the last axis has length `D`. -/
def HasShape {B S H : ℕ} (D : ℕ) (x : Tensor4 B S H) : Prop :=
  ∀ b s h, (x b s h).length = D

/-- The strided slice `l[::2]`: every second element starting at index 0.
`l[1::2]` is obtained as `stride2 (l.drop 1)`. -/
def stride2 {α : Type*} : List α → List α
  | [] => []
  | [a] => [a]
  | a :: _ :: rest => a :: stride2 rest

/-- Models `jnp.stack([es, os], axis=-1)` followed by the flattening
`reshape` of the last two axes: interleaves the two lists elementwise. -/
def interleave {α : Type*} : List α → List α → List α
  | [], _ => []
  | _, [] => []
  | e :: es, o :: os => e :: o :: interleave es os

/-- Models `power = -2 * jnp.arange(0, head_dim // 2) / head_dim`. -/
noncomputable def powerList (D : ℕ) : List ℝ :=
  (List.range (D / 2)).map (fun k : ℕ => -2 * (k : ℝ) / (D : ℝ))

/-- Models `timescale = base ** power` (elementwise real power). -/
noncomputable def timescaleList (base : ℝ) (D : ℕ) : List ℝ :=
  (powerList D).map (fun p => base ^ p)

/-- One `(b, s)` row of `freq = position[..., None] * timescale`:
the scalar position broadcast against the timescale vector. -/
noncomputable def freqList (base : ℝ) (D : ℕ) (pos : ℝ) : List ℝ :=
  (timescaleList base D).map (fun t => pos * t)

/-- The rotation applied to one `(b, s, h)` fiber of `x`, given the
per-plane cosine and sine vectors (which the source broadcasts over the
head axis, so they do not depend on `h`):

    x_even = x[..., ::2]; x_odd = x[..., 1::2]
    x_even, x_odd = (x_even * cos_freq - x_odd * sin_freq,
                     x_odd * cos_freq + x_even * sin_freq)
    stacked = jnp.stack([x_even, x_odd], axis=-1)
    return stacked.reshape(*stacked.shape[:-2], -1)
-/
def ropeFiber (cos_freq sin_freq v : List ℝ) : List ℝ :=
  let x_even := stride2 v
  let x_odd := stride2 (v.drop 1)
  let new_even :=
    List.zipWith (· - ·) (List.zipWith (· * ·) x_even cos_freq)
      (List.zipWith (· * ·) x_odd sin_freq)
  let new_odd :=
    List.zipWith (· + ·) (List.zipWith (· * ·) x_odd cos_freq)
      (List.zipWith (· * ·) x_even sin_freq)
  interleave new_even new_odd

/-- Models `apply_rope(x, position, base)`. `D` is the shape datum `x.shape[-1]`
(theorems relate it to `x` via `HasShape D x`). The `assert head_dim % 2
== 0` is the `if`: `none` models the assertion failure. -/
noncomputable def apply_rope {B S H : ℕ} (D : ℕ) (x : Tensor4 B S H)
    (position : Tensor2 B S) (base : ℝ) : Option (Tensor4 B S H) :=
  if D % 2 = 0 then
    some fun b s h =>
      ropeFiber ((freqList base D (position b s)).map Real.cos)
        ((freqList base D (position b s)).map Real.sin) (x b s h)
  else none

/-- Elementwise product followed by a sum over the last dimension:
the per-`(b,s,h)` dot product used by the relative-position property. -/
def dotLast (a b : List ℝ) : ℝ := (List.zipWith (· * ·) a b).sum

/-! ### Basic lemmas about the list-level operations -/

theorem stride2_length {α : Type*} (l : List α) :
    (stride2 l).length = (l.length + 1) / 2 := by
  induction l using stride2.induct with
  | case1 => simp [stride2]
  | case2 a => simp [stride2]
  | case3 a b rest ih => simp [stride2, ih]; omega

theorem getD_nil {α : Type*} (n : ℕ) (d : α) : ([] : List α).getD n d = d := by
  simp [List.getD]

theorem stride2_getD {α : Type*} (l : List α) (k : ℕ) (d : α) :
    (stride2 l).getD k d = l.getD (2 * k) d := by
  induction l using stride2.induct generalizing k with
  | case1 => rfl
  | case2 a =>
    cases k with
    | zero => rfl
    | succ k =>
      show ([a] : List α).getD (k + 1) d = ([a] : List α).getD (2 * (k + 1)) d
      have h2 : 2 * (k + 1) = 2 * k + 1 + 1 := by omega
      rw [h2, List.getD_cons_succ, List.getD_cons_succ, getD_nil, getD_nil]
  | case3 a b rest ih =>
    cases k with
    | zero => rfl
    | succ k =>
      show (a :: stride2 rest).getD (k + 1) d = (a :: b :: rest).getD (2 * (k + 1)) d
      have h2 : 2 * (k + 1) = 2 * k + 1 + 1 := by omega
      rw [h2, List.getD_cons_succ, List.getD_cons_succ, List.getD_cons_succ, ih]

theorem drop_one_getD {α : Type*} (l : List α) (k : ℕ) (d : α) :
    (l.drop 1).getD k d = l.getD (k + 1) d := by
  cases l with
  | nil => simp
  | cons a t => simp [List.getD_cons_succ]

theorem interleave_length {α : Type*} (es os : List α)
    (h : es.length = os.length) :
    (interleave es os).length = es.length + os.length := by
  induction es generalizing os with
  | nil => cases os with
    | nil => simp [interleave]
    | cons o os => simp at h
  | cons e es ih =>
    cases os with
    | nil => simp at h
    | cons o os =>
      simp only [List.length_cons] at h
      simp [interleave, ih os (by omega)]
      omega

theorem interleave_getD_even {α : Type*} (es os : List α) (k : ℕ) (d : α)
    (h : es.length = os.length) :
    (interleave es os).getD (2 * k) d = es.getD k d := by
  induction es generalizing os k with
  | nil => cases os with
    | nil => rfl
    | cons o os => simp at h
  | cons e es ih =>
    cases os with
    | nil => simp at h
    | cons o os =>
      simp only [List.length_cons] at h
      cases k with
      | zero => rfl
      | succ k =>
        show (e :: o :: interleave es os).getD (2 * (k + 1)) d = (e :: es).getD (k + 1) d
        have h2 : 2 * (k + 1) = 2 * k + 1 + 1 := by omega
        rw [h2, List.getD_cons_succ, List.getD_cons_succ, List.getD_cons_succ]
        exact ih os k (by omega)

theorem interleave_getD_odd {α : Type*} (es os : List α) (k : ℕ) (d : α)
    (h : es.length = os.length) :
    (interleave es os).getD (2 * k + 1) d = os.getD k d := by
  induction es generalizing os k with
  | nil => cases os with
    | nil => rfl
    | cons o os => simp at h
  | cons e es ih =>
    cases os with
    | nil => simp at h
    | cons o os =>
      simp only [List.length_cons] at h
      cases k with
      | zero => rfl
      | succ k =>
        show (e :: o :: interleave es os).getD (2 * (k + 1) + 1) d = (o :: os).getD (k + 1) d
        have h2 : 2 * (k + 1) + 1 = 2 * k + 1 + 1 + 1 := by omega
        rw [h2, List.getD_cons_succ, List.getD_cons_succ, List.getD_cons_succ]
        exact ih os k (by omega)

theorem zipWith_getD {α β γ : Type*} (f : α → β → γ) (a : List α)
    (b : List β) (i : ℕ) (da : α) (db : β) (dc : γ)
    (hi : i < a.length) (hab : a.length = b.length) :
    (List.zipWith f a b).getD i dc = f (a.getD i da) (b.getD i db) := by
  induction a generalizing b i with
  | nil => simp at hi
  | cons x xs ih =>
    cases b with
    | nil => simp at hab
    | cons y ys =>
      cases i with
      | zero => rfl
      | succ i =>
        simp only [List.length_cons] at hi hab
        show (f x y :: List.zipWith f xs ys).getD (i + 1) dc = _
        rw [List.getD_cons_succ, List.getD_cons_succ, List.getD_cons_succ]
        exact ih ys i (by omega) (by omega)

/-! ### Lengths and entries of the derived vectors -/

theorem ropeFiber_def (cs ss v : List ℝ) :
    ropeFiber cs ss v =
      interleave
        (List.zipWith (· - ·) (List.zipWith (· * ·) (stride2 v) cs)
          (List.zipWith (· * ·) (stride2 (v.drop 1)) ss))
        (List.zipWith (· + ·) (List.zipWith (· * ·) (stride2 (v.drop 1)) cs)
          (List.zipWith (· * ·) (stride2 v) ss)) := rfl

theorem freqList_length (base : ℝ) (D : ℕ) (p : ℝ) :
    (freqList base D p).length = D / 2 := by
  simp only [freqList, timescaleList, powerList, List.length_map,
    List.length_range]

theorem timescaleList_getD (base : ℝ) (D k : ℕ) (hk : k < D / 2) :
    (timescaleList base D).getD k 0 = base ^ (-2 * (k : ℝ) / (D : ℝ)) := by
  have hlen : k < (timescaleList base D).length := by
    simp only [timescaleList, powerList, List.length_map, List.length_range]
    exact hk
  rw [List.getD_eq_getElem _ _ hlen]
  simp only [timescaleList, powerList, List.getElem_map, List.getElem_range]

theorem powerList_getD (D k : ℕ) (hk : k < D / 2) :
    (powerList D).getD k 0 = -2 * (k : ℝ) / (D : ℝ) := by
  have hlen : k < (powerList D).length := by
    simp only [powerList, List.length_map, List.length_range]; exact hk
  rw [List.getD_eq_getElem _ _ hlen]
  simp only [powerList, List.getElem_map, List.getElem_range]

theorem cosList_getD (base : ℝ) (D : ℕ) (p : ℝ) (k : ℕ) (hk : k < D / 2) :
    ((freqList base D p).map Real.cos).getD k 0 =
      Real.cos (p * base ^ (-2 * (k : ℝ) / (D : ℝ))) := by
  have hlen : k < ((freqList base D p).map Real.cos).length := by
    simp only [freqList, timescaleList, powerList, List.length_map,
      List.length_range]
    exact hk
  rw [List.getD_eq_getElem _ _ hlen]
  simp only [freqList, timescaleList, powerList, List.getElem_map,
    List.getElem_range]

theorem sinList_getD (base : ℝ) (D : ℕ) (p : ℝ) (k : ℕ) (hk : k < D / 2) :
    ((freqList base D p).map Real.sin).getD k 0 =
      Real.sin (p * base ^ (-2 * (k : ℝ) / (D : ℝ))) := by
  have hlen : k < ((freqList base D p).map Real.sin).length := by
    simp only [freqList, timescaleList, powerList, List.length_map,
      List.length_range]
    exact hk
  rw [List.getD_eq_getElem _ _ hlen]
  simp only [freqList, timescaleList, powerList, List.getElem_map,
    List.getElem_range]

/-! ### Length and entries of the rotated fiber -/

theorem ropeFiber_length (cs ss v : List ℝ) (hv : v.length % 2 = 0)
    (hc : cs.length = v.length / 2) (hs : ss.length = v.length / 2) :
    (ropeFiber cs ss v).length = v.length := by
  rw [ropeFiber_def]
  rw [interleave_length]
  · simp only [List.length_zipWith, stride2_length, List.length_drop, hc, hs]
    omega
  · simp only [List.length_zipWith, stride2_length, List.length_drop, hc, hs]
    omega

theorem ropeFiber_getD_even (cs ss v : List ℝ) (k : ℕ)
    (hv : v.length % 2 = 0) (hc : cs.length = v.length / 2)
    (hs : ss.length = v.length / 2) (hk : k < v.length / 2) :
    (ropeFiber cs ss v).getD (2 * k) 0 =
      v.getD (2 * k) 0 * cs.getD k 0 - v.getD (2 * k + 1) 0 * ss.getD k 0 := by
  have hxe : (stride2 v).length = v.length / 2 := by rw [stride2_length]; omega
  have hxo : (stride2 (v.drop 1)).length = v.length / 2 := by
    rw [stride2_length, List.length_drop]; omega
  rw [ropeFiber_def]
  rw [interleave_getD_even _ _ _ _ (by
    simp only [List.length_zipWith, hxe, hxo, hc, hs, Nat.min_self])]
  rw [zipWith_getD _ _ _ _ 0 0 _
    (by simp only [List.length_zipWith, hxe, hxo, hc, hs, Nat.min_self]; exact hk)
    (by simp only [List.length_zipWith, hxe, hxo, hc, hs, Nat.min_self])]
  rw [zipWith_getD _ _ _ _ 0 0 _ (by omega) (by omega)]
  rw [zipWith_getD _ _ _ _ 0 0 _ (by omega) (by omega)]
  rw [stride2_getD, stride2_getD, drop_one_getD]

theorem ropeFiber_getD_odd (cs ss v : List ℝ) (k : ℕ)
    (hv : v.length % 2 = 0) (hc : cs.length = v.length / 2)
    (hs : ss.length = v.length / 2) (hk : k < v.length / 2) :
    (ropeFiber cs ss v).getD (2 * k + 1) 0 =
      v.getD (2 * k + 1) 0 * cs.getD k 0 + v.getD (2 * k) 0 * ss.getD k 0 := by
  have hxe : (stride2 v).length = v.length / 2 := by rw [stride2_length]; omega
  have hxo : (stride2 (v.drop 1)).length = v.length / 2 := by
    rw [stride2_length, List.length_drop]; omega
  rw [ropeFiber_def]
  rw [interleave_getD_odd _ _ _ _ (by
    simp only [List.length_zipWith, hxe, hxo, hc, hs, Nat.min_self])]
  rw [zipWith_getD _ _ _ _ 0 0 _
    (by simp only [List.length_zipWith, hxe, hxo, hc, hs, Nat.min_self]; exact hk)
    (by simp only [List.length_zipWith, hxe, hxo, hc, hs, Nat.min_self])]
  rw [zipWith_getD _ _ _ _ 0 0 _ (by omega) (by omega)]
  rw [zipWith_getD _ _ _ _ 0 0 _ (by omega) (by omega)]
  rw [stride2_getD, stride2_getD, drop_one_getD]

/-! ### The successful branch of `apply_rope` -/

theorem apply_rope_eq_some {B S H : ℕ} (D : ℕ) (x : Tensor4 B S H)
    (position : Tensor2 B S) (base : ℝ) (hD : D % 2 = 0) :
    apply_rope D x position base =
      some fun b s h =>
        ropeFiber ((freqList base D (position b s)).map Real.cos)
          ((freqList base D (position b s)).map Real.sin) (x b s h) := by
  unfold apply_rope
  rw [if_pos hD]

theorem apply_rope_some_length {B S H : ℕ} {D : ℕ} {x : Tensor4 B S H}
    {position : Tensor2 B S} {base : ℝ} {y : Tensor4 B S H}
    (hD : D % 2 = 0) (hx : HasShape D x)
    (hy : apply_rope D x position base = some y)
    (b : Fin B) (s : Fin S) (h : Fin H) :
    (y b s h).length = D := by
  rw [apply_rope_eq_some D x position base hD] at hy
  injection hy with hy
  subst hy
  rw [ropeFiber_length]
  · exact hx b s h
  · rw [hx b s h]; exact hD
  · rw [List.length_map, freqList_length, hx b s h]
  · rw [List.length_map, freqList_length, hx b s h]

theorem apply_rope_some_getD_even {B S H : ℕ} {D : ℕ} {x : Tensor4 B S H}
    {position : Tensor2 B S} {base : ℝ} {y : Tensor4 B S H}
    (hD : D % 2 = 0) (hx : HasShape D x)
    (hy : apply_rope D x position base = some y)
    (b : Fin B) (s : Fin S) (h : Fin H) (k : ℕ) (hk : k < D / 2) :
    (y b s h).getD (2 * k) 0 =
      (x b s h).getD (2 * k) 0 *
          Real.cos (position b s * base ^ (-2 * (k : ℝ) / (D : ℝ))) -
        (x b s h).getD (2 * k + 1) 0 *
          Real.sin (position b s * base ^ (-2 * (k : ℝ) / (D : ℝ))) := by
  rw [apply_rope_eq_some D x position base hD] at hy
  injection hy with hy
  subst hy
  rw [ropeFiber_getD_even _ _ _ _ (by rw [hx b s h]; exact hD)
    (by rw [List.length_map, freqList_length, hx b s h])
    (by rw [List.length_map, freqList_length, hx b s h])
    (by rw [hx b s h]; exact hk)]
  rw [cosList_getD _ _ _ _ hk, sinList_getD _ _ _ _ hk]

theorem apply_rope_some_getD_odd {B S H : ℕ} {D : ℕ} {x : Tensor4 B S H}
    {position : Tensor2 B S} {base : ℝ} {y : Tensor4 B S H}
    (hD : D % 2 = 0) (hx : HasShape D x)
    (hy : apply_rope D x position base = some y)
    (b : Fin B) (s : Fin S) (h : Fin H) (k : ℕ) (hk : k < D / 2) :
    (y b s h).getD (2 * k + 1) 0 =
      (x b s h).getD (2 * k + 1) 0 *
          Real.cos (position b s * base ^ (-2 * (k : ℝ) / (D : ℝ))) +
        (x b s h).getD (2 * k) 0 *
          Real.sin (position b s * base ^ (-2 * (k : ℝ) / (D : ℝ))) := by
  rw [apply_rope_eq_some D x position base hD] at hy
  injection hy with hy
  subst hy
  rw [ropeFiber_getD_odd _ _ _ _ (by rw [hx b s h]; exact hD)
    (by rw [List.length_map, freqList_length, hx b s h])
    (by rw [List.length_map, freqList_length, hx b s h])
    (by rw [hx b s h]; exact hk)]
  rw [cosList_getD _ _ _ _ hk, sinList_getD _ _ _ _ hk]

/-! ### Claim theorems -/

/-- C1: for every rank-4 real input `x` of shape `(B,S,H,D)` with `D` even
and `D ≥ 2`, every position array, and every positive base, `apply_rope`
returns the tensor whose entry at last-dimension index `2k` is
`x[...,2k]*cos f - x[...,2k+1]*sin f` and at index `2k+1` is
`x[...,2k+1]*cos f + x[...,2k]*sin f`, with
`f = position[b,s] * base^(-2k/D)` for each plane `k < D/2`, the same
angle for every head: the split and re-interleave are by even/odd index
of the last dimension. -/
theorem rope_entries_interleaved {B S H : ℕ} (D : ℕ) (x : Tensor4 B S H)
    (position : Tensor2 B S) (base : ℝ)
    (hD : D % 2 = 0) (hD2 : 2 ≤ D) (hbase : 0 < base) (hx : HasShape D x) :
    ∃ y, apply_rope D x position base = some y ∧
      ∀ (b : Fin B) (s : Fin S) (h : Fin H) (k : ℕ), k < D / 2 →
        (y b s h).getD (2 * k) 0 =
          (x b s h).getD (2 * k) 0 *
              Real.cos (position b s * base ^ (-2 * (k : ℝ) / (D : ℝ))) -
            (x b s h).getD (2 * k + 1) 0 *
              Real.sin (position b s * base ^ (-2 * (k : ℝ) / (D : ℝ))) ∧
        (y b s h).getD (2 * k + 1) 0 =
          (x b s h).getD (2 * k + 1) 0 *
              Real.cos (position b s * base ^ (-2 * (k : ℝ) / (D : ℝ))) +
            (x b s h).getD (2 * k) 0 *
              Real.sin (position b s * base ^ (-2 * (k : ℝ) / (D : ℝ))) := by
  refine ⟨_, apply_rope_eq_some D x position base hD, ?_⟩
  intro b s h k hk
  exact ⟨apply_rope_some_getD_even hD hx
      (apply_rope_eq_some D x position base hD) b s h k hk,
    apply_rope_some_getD_odd hD hx
      (apply_rope_eq_some D x position base hD) b s h k hk⟩

/-- Witness for C1 at `B = S = H = 1`, `D = 2`, `x = [1, 0]`,
`position = 0`, `base = 2`. -/
theorem rope_entries_interleaved_witness :
    ((2 : ℕ) % 2 = 0 ∧ 2 ≤ 2 ∧ (0 : ℝ) < 2 ∧
      HasShape 2 (fun _ _ _ => [1, 0] : Tensor4 1 1 1)) ∧
    (∃ y, apply_rope 2 (fun _ _ _ => [1, 0] : Tensor4 1 1 1)
        (fun _ _ => 0) 2 = some y ∧
      ∀ (b s h : Fin 1) (k : ℕ), k < 2 / 2 →
        (y b s h).getD (2 * k) 0 =
          ((fun _ _ _ => [1, 0] : Tensor4 1 1 1) b s h).getD (2 * k) 0 *
              Real.cos (0 * (2 : ℝ) ^ (-2 * (k : ℝ) / ((2 : ℕ) : ℝ))) -
            ((fun _ _ _ => [1, 0] : Tensor4 1 1 1) b s h).getD (2 * k + 1) 0 *
              Real.sin (0 * (2 : ℝ) ^ (-2 * (k : ℝ) / ((2 : ℕ) : ℝ))) ∧
        (y b s h).getD (2 * k + 1) 0 =
          ((fun _ _ _ => [1, 0] : Tensor4 1 1 1) b s h).getD (2 * k + 1) 0 *
              Real.cos (0 * (2 : ℝ) ^ (-2 * (k : ℝ) / ((2 : ℕ) : ℝ))) +
            ((fun _ _ _ => [1, 0] : Tensor4 1 1 1) b s h).getD (2 * k) 0 *
              Real.sin (0 * (2 : ℝ) ^ (-2 * (k : ℝ) / ((2 : ℕ) : ℝ)))) :=
  ⟨⟨rfl, le_refl 2, by norm_num, fun _ _ _ => rfl⟩,
    rope_entries_interleaved 2 (fun _ _ _ => [1, 0]) (fun _ _ => 0) 2
      rfl (le_refl 2) (by norm_num) (fun _ _ _ => rfl)⟩

/-- C2: for every valid input of shape `(B,S,H,D)` with `D` even and every
position of shape `(B,S)`, the array returned by `apply_rope` has exactly
the same shape `(B,S,H,D)` as `x`. -/
theorem rope_shape_preservation {B S H : ℕ} (D : ℕ) (x : Tensor4 B S H)
    (position : Tensor2 B S) (base : ℝ)
    (hD : D % 2 = 0) (hx : HasShape D x) :
    ∃ y, apply_rope D x position base = some y ∧ HasShape D y :=
  ⟨_, apply_rope_eq_some D x position base hD, fun b s h =>
    apply_rope_some_length hD hx (apply_rope_eq_some D x position base hD) b s h⟩

/-- Witness for C2 at `B = S = H = 1`, `D = 2`, `x = [1, 0]`,
`position = 0`, `base = 2`. -/
theorem rope_shape_preservation_witness :
    ((2 : ℕ) % 2 = 0 ∧ HasShape 2 (fun _ _ _ => [1, 0] : Tensor4 1 1 1)) ∧
    (∃ y, apply_rope 2 (fun _ _ _ => [1, 0] : Tensor4 1 1 1)
        (fun _ _ => 0) 2 = some y ∧ HasShape 2 y) :=
  ⟨⟨rfl, fun _ _ _ => rfl⟩,
    rope_shape_preservation 2 (fun _ _ _ => [1, 0]) (fun _ _ => 0) 2
      rfl (fun _ _ _ => rfl)⟩

/-- C3: `apply_rope` fails (returns `none`, modelling the assertion
failure) if and only if the last dimension of `x` is odd; no result is
produced in that case, and no other check is performed by the function
itself. -/
theorem rope_fails_iff_odd {B S H : ℕ} (D : ℕ) (x : Tensor4 B S H)
    (position : Tensor2 B S) (base : ℝ) :
    apply_rope D x position base = none ↔ D % 2 = 1 := by
  unfold apply_rope
  by_cases hD : D % 2 = 0
  · rw [if_pos hD]
    constructor
    · intro hc
      exact absurd hc (Option.some_ne_none _)
    · intro h1
      omega
  · rw [if_neg hD]
    constructor
    · intro _
      omega
    · intro _
      rfl

/-! ### List extensionality via `getD` -/

theorem list_ext_getD {α : Type*} (d : α) (a b : List α)
    (hlen : a.length = b.length) (h : ∀ i, a.getD i d = b.getD i d) :
    a = b := by
  induction a generalizing b with
  | nil =>
    cases b with
    | nil => rfl
    | cons y ys => simp at hlen
  | cons x xs ih =>
    cases b with
    | nil => simp at hlen
    | cons y ys =>
      simp only [List.length_cons] at hlen
      have h0 := h 0
      simp only [List.getD_cons_zero] at h0
      subst h0
      congr 1
      refine ih ys (by omega) (fun i => ?_)
      have hi := h (i + 1)
      simpa only [List.getD_cons_succ] using hi

/-- Shared helper: at the all-zero position array, `apply_rope` returns
`x` itself (every rotation angle is `0`). -/
theorem apply_rope_zero_eq {B S H : ℕ} (D : ℕ) (x : Tensor4 B S H)
    (base : ℝ) (hD : D % 2 = 0) (hx : HasShape D x) :
    apply_rope D x (fun _ _ => 0) base = some x := by
  rw [apply_rope_eq_some D x (fun _ _ => 0) base hD]
  congr 1
  funext b s h
  have hv : (x b s h).length = D := hx b s h
  have hc : ((freqList base D ((0 : ℝ))).map Real.cos).length =
      (x b s h).length / 2 := by
    rw [List.length_map, freqList_length, hv]
  have hs' : ((freqList base D ((0 : ℝ))).map Real.sin).length =
      (x b s h).length / 2 := by
    rw [List.length_map, freqList_length, hv]
  have hvD : (x b s h).length % 2 = 0 := by rw [hv]; exact hD
  refine list_ext_getD (0 : ℝ) _ _ ?_ ?_
  · rw [ropeFiber_length _ _ _ hvD hc hs']
  · intro i
    by_cases hi : i < D
    · rcases Nat.even_or_odd i with ⟨k, hk⟩ | ⟨k, hk⟩
      · have hik : i = 2 * k := by omega
        have hkK : k < (x b s h).length / 2 := by omega
        rw [hik, ropeFiber_getD_even _ _ _ k hvD hc hs' hkK]
        rw [cosList_getD _ _ _ _ (by omega), sinList_getD _ _ _ _ (by omega)]
        simp
      · have hik : i = 2 * k + 1 := by omega
        have hkK : k < (x b s h).length / 2 := by omega
        rw [hik, ropeFiber_getD_odd _ _ _ k hvD hc hs' hkK]
        rw [cosList_getD _ _ _ _ (by omega), sinList_getD _ _ _ _ (by omega)]
        simp
    · rw [List.getD_eq_default _ _
        (by rw [ropeFiber_length _ _ _ hvD hc hs']; omega),
        List.getD_eq_default _ _ (by omega)]

/-- C4: for every valid `x` of shape `(B,S,H,D)` with `D` even and the
all-zero position array, `apply_rope x zeros base` equals `x` exactly in
real arithmetic: every rotation angle is `0`, `cos 0 = 1`, `sin 0 = 0`. -/
theorem rope_zero_position_identity {B S H : ℕ} (D : ℕ) (x : Tensor4 B S H)
    (base : ℝ) (hD : D % 2 = 0) (hx : HasShape D x) :
    apply_rope D x (fun _ _ => 0) base = some x :=
  apply_rope_zero_eq D x base hD hx

/-- Witness for C4 at `B = S = H = 1`, `D = 2`, `x = [1, 0]`, `base = 2`. -/
theorem rope_zero_position_identity_witness :
    ((2 : ℕ) % 2 = 0 ∧ HasShape 2 (fun _ _ _ => [1, 0] : Tensor4 1 1 1)) ∧
    apply_rope 2 (fun _ _ _ => [1, 0] : Tensor4 1 1 1) (fun _ _ => 0) 2 =
      some (fun _ _ _ => [1, 0] : Tensor4 1 1 1) :=
  ⟨⟨rfl, fun _ _ _ => rfl⟩,
    rope_zero_position_identity 2 (fun _ _ _ => [1, 0]) 2 rfl
      (fun _ _ _ => rfl)⟩

/-- Scalar fact: a 2D rotation preserves the squared norm of a pair. -/
theorem rot_norm (e o a : ℝ) :
    (e * Real.cos a - o * Real.sin a) ^ 2 +
      (o * Real.cos a + e * Real.sin a) ^ 2 = e ^ 2 + o ^ 2 := by
  have h := Real.sin_sq_add_cos_sq a
  linear_combination (e ^ 2 + o ^ 2) * h

/-- C6: norm preservation per rotation plane: for every valid input,
every plane `k < D/2` and every `(b,s,h)`, the output entries satisfy
`new_even^2 + new_odd^2 = x_even^2 + x_odd^2` in exact real
arithmetic. -/
theorem rope_norm_per_plane {B S H : ℕ} (D : ℕ) (x : Tensor4 B S H)
    (position : Tensor2 B S) (base : ℝ)
    (hD : D % 2 = 0) (hx : HasShape D x) :
    ∃ y, apply_rope D x position base = some y ∧
      ∀ (b : Fin B) (s : Fin S) (h : Fin H) (k : ℕ), k < D / 2 →
        (y b s h).getD (2 * k) 0 ^ 2 + (y b s h).getD (2 * k + 1) 0 ^ 2 =
          (x b s h).getD (2 * k) 0 ^ 2 + (x b s h).getD (2 * k + 1) 0 ^ 2 := by
  refine ⟨_, apply_rope_eq_some D x position base hD, ?_⟩
  intro b s h k hk
  rw [apply_rope_some_getD_even hD hx
      (apply_rope_eq_some D x position base hD) b s h k hk,
    apply_rope_some_getD_odd hD hx
      (apply_rope_eq_some D x position base hD) b s h k hk]
  exact rot_norm _ _ _

/-- Witness for C6 at `B = S = H = 1`, `D = 2`, `x = [1, 0]`,
`position = 0`, `base = 2`. -/
theorem rope_norm_per_plane_witness :
    ((2 : ℕ) % 2 = 0 ∧ HasShape 2 (fun _ _ _ => [1, 0] : Tensor4 1 1 1)) ∧
    (∃ y, apply_rope 2 (fun _ _ _ => [1, 0] : Tensor4 1 1 1)
        (fun _ _ => 0) 2 = some y ∧
      ∀ (b s h : Fin 1) (k : ℕ), k < 2 / 2 →
        (y b s h).getD (2 * k) 0 ^ 2 + (y b s h).getD (2 * k + 1) 0 ^ 2 =
          ((fun _ _ _ => [1, 0] : Tensor4 1 1 1) b s h).getD (2 * k) 0 ^ 2 +
            ((fun _ _ _ => [1, 0] : Tensor4 1 1 1) b s h).getD (2 * k + 1) 0 ^ 2) :=
  ⟨⟨rfl, fun _ _ _ => rfl⟩,
    rope_norm_per_plane 2 (fun _ _ _ => [1, 0]) (fun _ _ => 0) 2 rfl
      (fun _ _ _ => rfl)⟩

/-- C7: for even `D ≥ 2` and `base > 1`, the derived timescale vector has
entries `timescale[k] = base^(-2k/D)`, is strictly decreasing, lies in
`(0, 1]`, starts at `timescale[0] = 1`, and the exponents are
`power[k] = -2k/D` over ordinary sequential `k`. -/
theorem timescale_strictly_decreasing (D : ℕ) (base : ℝ)
    (hD : D % 2 = 0) (hD2 : 2 ≤ D) (hb : 1 < base) :
    (timescaleList base D).length = D / 2 ∧
    (timescaleList base D).getD 0 0 = 1 ∧
    (∀ k, k < D / 2 →
      (timescaleList base D).getD k 0 = base ^ (-2 * (k : ℝ) / (D : ℝ))) ∧
    (∀ k, k < D / 2 →
      0 < (timescaleList base D).getD k 0 ∧ (timescaleList base D).getD k 0 ≤ 1) ∧
    (∀ j k, j < k → k < D / 2 →
      (timescaleList base D).getD k 0 < (timescaleList base D).getD j 0) ∧
    (∀ k, k < D / 2 → (powerList D).getD k 0 = -2 * (k : ℝ) / (D : ℝ)) := by
  have hD0 : (0 : ℝ) < (D : ℝ) := by
    have : 0 < D := by omega
    exact_mod_cast this
  have hb0 : (0 : ℝ) < base := lt_trans one_pos hb
  refine ⟨?_, ?_, ?_, ?_, ?_, ?_⟩
  · simp only [timescaleList, powerList, List.length_map, List.length_range]
  · rw [timescaleList_getD base D 0 (by omega)]
    norm_num
  · intro k hk
    exact timescaleList_getD base D k hk
  · intro k hk
    rw [timescaleList_getD base D k hk]
    constructor
    · exact Real.rpow_pos_of_pos hb0 _
    · refine Real.rpow_le_one_of_one_le_of_nonpos (le_of_lt hb) ?_
      apply div_nonpos_of_nonpos_of_nonneg
      · have : (0 : ℝ) ≤ (k : ℝ) := Nat.cast_nonneg k
        linarith
      · linarith
  · intro j k hjk hk
    rw [timescaleList_getD base D k hk, timescaleList_getD base D j (by omega)]
    apply Real.rpow_lt_rpow_of_exponent_lt hb
    rw [div_lt_div_iff_of_pos_right hD0]
    have : (j : ℝ) < (k : ℝ) := by exact_mod_cast hjk
    linarith
  · intro k hk
    exact powerList_getD D k hk

/-- Witness for C7 at `D = 4`, `base = 2`. -/
theorem timescale_strictly_decreasing_witness :
    ((4 : ℕ) % 2 = 0 ∧ 2 ≤ 4 ∧ (1 : ℝ) < 2) ∧
    ((timescaleList 2 4).length = 4 / 2 ∧
    (timescaleList 2 4).getD 0 0 = 1 ∧
    (∀ k, k < 4 / 2 →
      (timescaleList 2 4).getD k 0 = (2 : ℝ) ^ (-2 * (k : ℝ) / ((4 : ℕ) : ℝ))) ∧
    (∀ k, k < 4 / 2 →
      0 < (timescaleList 2 4).getD k 0 ∧ (timescaleList 2 4).getD k 0 ≤ 1) ∧
    (∀ j k, j < k → k < 4 / 2 →
      (timescaleList 2 4).getD k 0 < (timescaleList 2 4).getD j 0) ∧
    (∀ k, k < 4 / 2 → (powerList 4).getD k 0 = -2 * (k : ℝ) / ((4 : ℕ) : ℝ))) :=
  ⟨⟨rfl, by omega, by norm_num⟩,
    timescale_strictly_decreasing 4 2 rfl (by omega) (by norm_num)⟩

/-- C8: for even `D ≥ 4` and bases `1 < b1 < b2`, increasing the base
strictly decreases `timescale[k]` for every plane `1 ≤ k < D/2`, leaves
`timescale[0] = 1` unchanged, and at a fixed nonzero position strictly
decreases the rotation angle magnitude for those planes. -/
theorem timescale_base_sensitivity (D : ℕ) (b1 b2 p : ℝ)
    (hD : D % 2 = 0) (hD4 : 4 ≤ D) (hb1 : 1 < b1) (hb12 : b1 < b2)
    (hp : p ≠ 0) :
    (timescaleList b1 D).getD 0 0 = 1 ∧
    (timescaleList b2 D).getD 0 0 = 1 ∧
    ∀ k, 1 ≤ k → k < D / 2 →
      (timescaleList b2 D).getD k 0 < (timescaleList b1 D).getD k 0 ∧
      |p * (timescaleList b2 D).getD k 0| < |p * (timescaleList b1 D).getD k 0| := by
  have hD0 : (0 : ℝ) < (D : ℝ) := by
    have : 0 < D := by omega
    exact_mod_cast this
  have hb10 : (0 : ℝ) < b1 := lt_trans one_pos hb1
  have hb20 : (0 : ℝ) < b2 := lt_trans hb10 hb12
  refine ⟨?_, ?_, ?_⟩
  · rw [timescaleList_getD b1 D 0 (by omega)]
    norm_num
  · rw [timescaleList_getD b2 D 0 (by omega)]
    norm_num
  · intro k hk1 hk
    have hexp : -2 * (k : ℝ) / (D : ℝ) < 0 := by
      apply div_neg_of_neg_of_pos _ hD0
      have : (1 : ℝ) ≤ (k : ℝ) := by exact_mod_cast hk1
      linarith
    have hlt : (timescaleList b2 D).getD k 0 < (timescaleList b1 D).getD k 0 := by
      rw [timescaleList_getD b2 D k hk, timescaleList_getD b1 D k hk]
      exact Real.rpow_lt_rpow_of_neg hb10 hb12 hexp
    have hpos2 : 0 < (timescaleList b2 D).getD k 0 := by
      rw [timescaleList_getD b2 D k hk]
      exact Real.rpow_pos_of_pos hb20 _
    have hpos1 : 0 < (timescaleList b1 D).getD k 0 := by
      rw [timescaleList_getD b1 D k hk]
      exact Real.rpow_pos_of_pos hb10 _
    refine ⟨hlt, ?_⟩
    rw [abs_mul, abs_mul, abs_of_pos hpos1, abs_of_pos hpos2]
    exact mul_lt_mul_of_pos_left hlt (abs_pos.mpr hp)

/-- Witness for C8 at `D = 4`, `b1 = 2`, `b2 = 3`, `p = 1`. -/
theorem timescale_base_sensitivity_witness :
    ((4 : ℕ) % 2 = 0 ∧ 4 ≤ 4 ∧ (1 : ℝ) < 2 ∧ (2 : ℝ) < 3 ∧ (1 : ℝ) ≠ 0) ∧
    ((timescaleList 2 4).getD 0 0 = 1 ∧
    (timescaleList 3 4).getD 0 0 = 1 ∧
    ∀ k, 1 ≤ k → k < 4 / 2 →
      (timescaleList 3 4).getD k 0 < (timescaleList 2 4).getD k 0 ∧
      |1 * (timescaleList 3 4).getD k 0| < |1 * (timescaleList 2 4).getD k 0|) :=
  ⟨⟨rfl, by omega, by norm_num, by norm_num, by norm_num⟩,
    timescale_base_sensitivity 4 2 3 1 rfl (by omega) (by norm_num)
      (by norm_num) (by norm_num)⟩

/-! ### Dot products over the last dimension -/

theorem dotLast_eq_sum_range (a b : List ℝ) (n : ℕ)
    (ha : a.length = n) (hb : b.length = n) :
    dotLast a b = ∑ i ∈ Finset.range n, a.getD i 0 * b.getD i 0 := by
  induction a generalizing b n with
  | nil =>
    have hn : n = 0 := by simpa using ha.symm
    subst hn
    simp [dotLast]
  | cons u us ih =>
    cases b with
    | nil =>
      simp only [List.length_cons] at ha
      simp only [List.length_nil] at hb
      omega
    | cons v vs =>
      cases n with
      | zero => simp at ha
      | succ m =>
        simp only [List.length_cons] at ha hb
        have hstep : dotLast (u :: us) (v :: vs) = u * v + dotLast us vs := by
          simp [dotLast]
        rw [hstep, ih vs m (by omega) (by omega), Finset.sum_range_succ']
        simp only [List.getD_cons_succ, List.getD_cons_zero]
        ring

theorem sum_range_two_mul (K : ℕ) (f : ℕ → ℝ) :
    ∑ i ∈ Finset.range (2 * K), f i =
      ∑ k ∈ Finset.range K, (f (2 * k) + f (2 * k + 1)) := by
  induction K with
  | zero => simp
  | succ m ih =>
    have h2 : 2 * (m + 1) = 2 * m + 1 + 1 := by omega
    rw [h2, Finset.sum_range_succ, Finset.sum_range_succ, ih,
      Finset.sum_range_succ]
    ring

theorem dotLast_planes (a b : List ℝ) (D : ℕ) (hD : D % 2 = 0)
    (ha : a.length = D) (hb : b.length = D) :
    dotLast a b = ∑ k ∈ Finset.range (D / 2),
      (a.getD (2 * k) 0 * b.getD (2 * k) 0 +
        a.getD (2 * k + 1) 0 * b.getD (2 * k + 1) 0) := by
  have h2 : 2 * (D / 2) = D := by omega
  rw [dotLast_eq_sum_range a b D ha hb]
  conv_lhs => rw [← h2]
  rw [sum_range_two_mul]

/-- Scalar fact: the pairwise dot product of two rotated planes depends
only on the angle difference. -/
theorem rot_dot (xe xo ye yo a d : ℝ) :
    (xe * Real.cos a - xo * Real.sin a) *
        (ye * Real.cos (a + d) - yo * Real.sin (a + d)) +
      (xo * Real.cos a + xe * Real.sin a) *
        (yo * Real.cos (a + d) + ye * Real.sin (a + d)) =
    xe * (ye * Real.cos d - yo * Real.sin d) +
      xo * (yo * Real.cos d + ye * Real.sin d) := by
  rw [Real.cos_add, Real.sin_add]
  linear_combination
    ((xe * ye + xo * yo) * Real.cos d + (xo * ye - xe * yo) * Real.sin d) *
      Real.sin_sq_add_cos_sq a

/-- C5: relative-position property: for all valid `x`, `y` of shape
`(B,S,H,D)` with `D` even, any position array `p` and any scalar shift
`d`, the sum over the last dimension of
`apply_rope(x, p) * apply_rope(y, p + d)` equals the sum over the last
dimension of `x * apply_rope(y, d)` at every `(b, s, h)` in exact real
arithmetic, so the pairwise dot product depends only on `d`, not on `p`. -/
theorem rope_relative_position_dot {B S H : ℕ} (D : ℕ) (x y : Tensor4 B S H)
    (position : Tensor2 B S) (base : ℝ) (d : ℝ)
    (hD : D % 2 = 0) (hx : HasShape D x) (hy : HasShape D y) :
    ∃ xr yr yd,
      apply_rope D x position base = some xr ∧
      apply_rope D y (fun b s => position b s + d) base = some yr ∧
      apply_rope D y (fun _ _ => d) base = some yd ∧
      ∀ (b : Fin B) (s : Fin S) (h : Fin H),
        dotLast (xr b s h) (yr b s h) = dotLast (x b s h) (yd b s h) := by
  have hxr := apply_rope_eq_some D x position base hD
  have hyr := apply_rope_eq_some D y (fun b s => position b s + d) base hD
  have hyd := apply_rope_eq_some D y (fun _ _ => d) base hD
  refine ⟨_, _, _, hxr, hyr, hyd, ?_⟩
  intro b s h
  rw [dotLast_planes _ _ D hD
      (apply_rope_some_length hD hx hxr b s h)
      (apply_rope_some_length hD hy hyr b s h),
    dotLast_planes _ _ D hD (hx b s h)
      (apply_rope_some_length hD hy hyd b s h)]
  apply Finset.sum_congr rfl
  intro k hk
  rw [Finset.mem_range] at hk
  rw [apply_rope_some_getD_even hD hx hxr b s h k hk,
    apply_rope_some_getD_odd hD hx hxr b s h k hk,
    apply_rope_some_getD_even hD hy hyr b s h k hk,
    apply_rope_some_getD_odd hD hy hyr b s h k hk,
    apply_rope_some_getD_even hD hy hyd b s h k hk,
    apply_rope_some_getD_odd hD hy hyd b s h k hk]
  rw [add_mul]
  exact rot_dot _ _ _ _ _ _

/-- Witness for C5 at `B = S = H = 1`, `D = 2`, `x = [1, 0]`,
`y = [0, 1]`, `p = 0`, `d = 1`, `base = 2`. -/
theorem rope_relative_position_dot_witness :
    ((2 : ℕ) % 2 = 0 ∧ HasShape 2 (fun _ _ _ => [1, 0] : Tensor4 1 1 1) ∧
      HasShape 2 (fun _ _ _ => [0, 1] : Tensor4 1 1 1)) ∧
    (∃ xr yr yd,
      apply_rope 2 (fun _ _ _ => [1, 0] : Tensor4 1 1 1)
        (fun _ _ => 0) 2 = some xr ∧
      apply_rope 2 (fun _ _ _ => [0, 1] : Tensor4 1 1 1)
        (fun b s => (fun _ _ => (0 : ℝ)) b s + 1) 2 = some yr ∧
      apply_rope 2 (fun _ _ _ => [0, 1] : Tensor4 1 1 1)
        (fun _ _ => 1) 2 = some yd ∧
      ∀ (b s h : Fin 1),
        dotLast (xr b s h) (yr b s h) =
          dotLast (((fun _ _ _ => [1, 0] : Tensor4 1 1 1)) b s h) (yd b s h)) :=
  ⟨⟨rfl, fun _ _ _ => rfl, fun _ _ _ => rfl⟩,
    rope_relative_position_dot 2 (fun _ _ _ => [1, 0]) (fun _ _ _ => [0, 1])
      (fun _ _ => 0) 2 1 rfl (fun _ _ _ => rfl) (fun _ _ _ => rfl)⟩

/-- Scalar fact: composing two plane rotations adds the angles
(even entry). -/
theorem rot_compose_even (e o ap aq : ℝ) :
    e * Real.cos (ap + aq) - o * Real.sin (ap + aq) =
      (e * Real.cos ap - o * Real.sin ap) * Real.cos aq -
        (o * Real.cos ap + e * Real.sin ap) * Real.sin aq := by
  rw [Real.cos_add, Real.sin_add]
  ring

/-- Scalar fact: composing two plane rotations adds the angles
(odd entry). -/
theorem rot_compose_odd (e o ap aq : ℝ) :
    o * Real.cos (ap + aq) + e * Real.sin (ap + aq) =
      (o * Real.cos ap + e * Real.sin ap) * Real.cos aq +
        (e * Real.cos ap - o * Real.sin ap) * Real.sin aq := by
  rw [Real.cos_add, Real.sin_add]
  ring

/-- C10: composition law: applying `apply_rope` at positions `p` and then
`q` equals applying it once at `p + q`; in particular rotating at `-p`
inverts rotating at `p`. -/
theorem rope_composition_inverse {B S H : ℕ} (D : ℕ) (x : Tensor4 B S H)
    (p q : Tensor2 B S) (base : ℝ)
    (hD : D % 2 = 0) (hbase : 0 < base) (hx : HasShape D x) :
    (∀ x1 x2, apply_rope D x p base = some x1 →
        apply_rope D x1 q base = some x2 →
        apply_rope D x (fun b s => p b s + q b s) base = some x2) ∧
    (∀ x1 xinv, apply_rope D x p base = some x1 →
        apply_rope D x1 (fun b s => -(p b s)) base = some xinv →
        xinv = x) := by
  have hmain : ∀ (r : Tensor2 B S) (x1 x2 : Tensor4 B S H),
      apply_rope D x p base = some x1 →
      apply_rope D x1 r base = some x2 →
      apply_rope D x (fun b s => p b s + r b s) base = some x2 := by
    intro r x1 x2 h1 h2
    have hx1 : HasShape D x1 := fun b s h =>
      apply_rope_some_length hD hx h1 b s h
    have hpr := apply_rope_eq_some D x (fun b s => p b s + r b s) base hD
    rw [hpr]
    rw [Option.some_inj]
    funext b s h
    refine list_ext_getD (0 : ℝ) _ _ ?_ ?_
    · rw [apply_rope_some_length hD hx hpr b s h,
        apply_rope_some_length hD hx1 h2 b s h]
    · intro i
      by_cases hi : i < D
      · rcases Nat.even_or_odd i with ⟨k, hk⟩ | ⟨k, hk⟩
        · have hik : i = 2 * k := by omega
          have hkK : k < D / 2 := by omega
          rw [hik, apply_rope_some_getD_even hD hx hpr b s h k hkK,
            apply_rope_some_getD_even hD hx1 h2 b s h k hkK,
            apply_rope_some_getD_even hD hx h1 b s h k hkK,
            apply_rope_some_getD_odd hD hx h1 b s h k hkK]
          rw [add_mul]
          exact rot_compose_even _ _ _ _
        · have hik : i = 2 * k + 1 := by omega
          have hkK : k < D / 2 := by omega
          rw [hik, apply_rope_some_getD_odd hD hx hpr b s h k hkK,
            apply_rope_some_getD_odd hD hx1 h2 b s h k hkK,
            apply_rope_some_getD_even hD hx h1 b s h k hkK,
            apply_rope_some_getD_odd hD hx h1 b s h k hkK]
          rw [add_mul]
          exact rot_compose_odd _ _ _ _
      · rw [List.getD_eq_default _ _
            (by rw [apply_rope_some_length hD hx hpr b s h]; omega),
          List.getD_eq_default _ _
            (by rw [apply_rope_some_length hD hx1 h2 b s h]; omega)]
  refine ⟨hmain q, ?_⟩
  intro x1 xinv h1 hinv
  have hsum := hmain (fun b s => -(p b s)) x1 xinv h1 hinv
  have hzero : (fun b s => p b s + (fun b s => -(p b s)) b s) =
      (fun _ _ => (0 : ℝ) : Tensor2 B S) := by
    funext b s
    simp
  rw [hzero, apply_rope_zero_eq D x base hD hx] at hsum
  injection hsum with hsum
  exact hsum.symm

/-- Witness for C10 at `B = S = H = 1`, `D = 2`, `x = [1, 0]`,
`p = q = 0`, `base = 2`. -/
theorem rope_composition_inverse_witness :
    ((2 : ℕ) % 2 = 0 ∧ (0 : ℝ) < 2 ∧
      HasShape 2 (fun _ _ _ => [1, 0] : Tensor4 1 1 1)) ∧
    ((∀ x1 x2, apply_rope 2 (fun _ _ _ => [1, 0] : Tensor4 1 1 1)
          (fun _ _ => 0) 2 = some x1 →
        apply_rope 2 x1 (fun _ _ => 0) 2 = some x2 →
        apply_rope 2 (fun _ _ _ => [1, 0] : Tensor4 1 1 1)
          (fun b s => (fun _ _ => (0 : ℝ)) b s + (fun _ _ => (0 : ℝ)) b s) 2 =
          some x2) ∧
    (∀ x1 xinv, apply_rope 2 (fun _ _ _ => [1, 0] : Tensor4 1 1 1)
          (fun _ _ => 0) 2 = some x1 →
        apply_rope 2 x1 (fun b s => -((fun _ _ => (0 : ℝ)) b s)) 2 =
          some xinv →
        xinv = (fun _ _ _ => [1, 0] : Tensor4 1 1 1))) :=
  ⟨⟨rfl, by norm_num, fun _ _ _ => rfl⟩,
    rope_composition_inverse 2 (fun _ _ _ => [1, 0]) (fun _ _ => 0)
      (fun _ _ => 0) 2 rfl (by norm_num) (fun _ _ _ => rfl)⟩
